import Mathlib

/-!
Verification of django-wiki behaviors: the `previewlinks` markdown
tree-processor (`src/wiki/core/markdown/mdx/previewlinks.py`) and the
Article / ArticleRevision / plugin revisioning data model exercised by
`tests/core/test_models.py`.

The previewlinks processor operates on an ElementTree document tree; we
embed the element tree shallowly and translate `PreviewLinksTree.run`
and `PreviewLinksExtension.extendMarkdown` from the source.
-/

namespace Wiki

/-- An ElementTree element: a tag, an attribute dictionary (modelled as an
association list preserving insertion order, as Python dicts do), and a
list of child elements. -/
inductive Element where
  | mk : String → List (String × String) → List Element → Element

def Element.tag : Element → String
  | .mk t _ _ => t

def Element.attrib : Element → List (String × String)
  | .mk _ a _ => a

def Element.children : Element → List Element
  | .mk _ _ c => c

/-- `element.get(key)`: look up an attribute, `none` when absent. -/
def attribGet : List (String × String) → String → Option String
  | [], _ => none
  | p :: rest, key => if p.1 = key then some p.2 else attribGet rest key

/-- `element.set(key, value)`: overwrite the value of an existing key in
place, or append the new key at the end (Python dict assignment). -/
def attribSet (attrib : List (String × String)) (key value : String) : List (String × String) :=
  match attrib with
  | [] => [(key, value)]
  | p :: rest =>
      if p.1 = key then (key, value) :: rest
      else p :: attribSet rest key value

def Element.get (e : Element) (key : String) : Option String :=
  attribGet e.attrib key

/-- `href.startswith("#")`: the string begins with the `#` character. -/
def strStartsWithHash (s : String) : Bool :=
  match s.data with
  | [] => false
  | c :: _ => c = '#'

/-- The body of the `for a in root.findall(".//a")` loop applied to one
anchor's attributes: `a.get("href").startswith("#")` raises
(AttributeError on `None`) when the anchor has no `href`; otherwise the
`target` attribute is set to `"_blank"` unless the href starts with `"#"`. -/
def anchorStep (attrib : List (String × String)) : Except Unit (List (String × String)) :=
  match attribGet attrib "href" with
  | none => .error ()
  | some href =>
      if strStartsWithHash href then .ok attrib
      else .ok (attribSet attrib "target" "_blank")

mutual

/-- Process every element below the root: `root.findall(".//a")` selects
every descendant (the root itself excluded) whose tag is `a`, and the
loop body mutates only those anchors' attributes. -/
def runDesc : Element → Except Unit Element
  | .mk tag attrib children =>
      match (if tag = "a" then anchorStep attrib else .ok attrib) with
      | .error u => .error u
      | .ok attrib' =>
          match runDescList children with
          | .error u => .error u
          | .ok children' => .ok (.mk tag attrib' children')

def runDescList : List Element → Except Unit (List Element)
  | [] => .ok []
  | e :: es =>
      match runDesc e with
      | .error u => .error u
      | .ok e' =>
          match runDescList es with
          | .error u => .error u
          | .ok es' => .ok (e' :: es')

end

/-- `PreviewLinksTree.run(root)`: when `md.preview` holds, set
`target="_blank"` on every descendant anchor whose `href` does not start
with `"#"`; always return the root. An anchor with no `href` attribute
makes the loop raise, modelled as `.error ()`. -/
def PreviewLinksTree.run (preview : Bool) (root : Element) : Except Unit Element :=
  if preview then
    match runDescList root.children with
    | .error u => .error u
    | .ok children' => .ok (.mk root.tag root.attrib children')
  else .ok root

mutual

/-- Every descendant-or-self anchor carries an `href` attribute. -/
def anchorsHaveHref : Element → Bool
  | .mk tag attrib children =>
      (tag ≠ "a" || (attribGet attrib "href").isSome) && anchorsHaveHrefList children

def anchorsHaveHrefList : List Element → Bool
  | [] => true
  | e :: es => anchorsHaveHref e && anchorsHaveHrefList es

end

mutual

/-- Every descendant-or-self anchor whose `href` does not start with `"#"`
has `target` set to `"_blank"`. -/
def anchorsTargetBlank : Element → Bool
  | .mk tag attrib children =>
      (if tag = "a" then
        match attribGet attrib "href" with
        | none => false
        | some href => strStartsWithHash href || attribGet attrib "target" = some "_blank"
      else true) && anchorsTargetBlankList children

def anchorsTargetBlankList : List Element → Bool
  | [] => true
  | e :: es => anchorsTargetBlank e && anchorsTargetBlankList es

end

mutual

/-- The frame condition relating an element before and after the preview
pass: tags and children shape are preserved, every non-anchor element and
every fragment anchor (`href` starting with `"#"`) keeps its attributes
verbatim, and a non-fragment anchor changes only by `target := "_blank"`. -/
def frameOk : Element → Element → Bool
  | .mk tag attrib children, .mk tag' attrib' children' =>
      tag' = tag &&
      (if tag = "a" then
         match attribGet attrib "href" with
         | none => false
         | some href =>
             if strStartsWithHash href then attrib' = attrib
             else attrib' = attribSet attrib "target" "_blank"
       else attrib' = attrib) &&
      frameOkList children children'

def frameOkList : List Element → List Element → Bool
  | [], [] => true
  | e :: es, f :: fs => frameOk e f && frameOkList es fs
  | _, _ => false

end

theorem attribGet_set_self (l : List (String × String)) (k v : String) :
    attribGet (attribSet l k v) k = some v := by
  induction l with
  | nil => simp [attribSet, attribGet]
  | cons p rest ih =>
      by_cases h : p.1 = k
      · simp [attribSet, h, attribGet]
      · simp [attribSet, h, attribGet, ih]

theorem attribGet_set_ne (l : List (String × String)) (k v k' : String) (h : k' ≠ k) :
    attribGet (attribSet l k v) k' = attribGet l k' := by
  have hk : ¬ k = k' := fun hkk => h hkk.symm
  induction l with
  | nil => simp [attribSet, attribGet, hk]
  | cons p rest ih =>
      by_cases hp : p.1 = k
      · simp [attribSet, hp, attribGet, hk]
      · simp [attribSet, hp, attribGet, ih]

mutual

theorem runDesc_isOk : ∀ e : Element, (runDesc e).isOk = anchorsHaveHref e
  | .mk tag attrib children => by
      have hc := runDescList_isOk children
      unfold runDesc anchorsHaveHref
      by_cases ht : tag = "a"
      · subst ht
        cases hg : attribGet attrib "href" with
        | none => simp [anchorStep, hg, Except.isOk, Except.toBool]
        | some href =>
            by_cases hs : strStartsWithHash href <;>
              cases hr : runDescList children <;>
                rw [hr] at hc <;>
                  simp_all [anchorStep, hg, Except.isOk, Except.toBool]
      · cases hr : runDescList children <;>
          rw [hr] at hc <;>
            simp_all [Except.isOk, Except.toBool]

theorem runDescList_isOk : ∀ es : List Element, (runDescList es).isOk = anchorsHaveHrefList es
  | [] => by simp [runDescList, anchorsHaveHrefList, Except.isOk, Except.toBool]
  | e :: es => by
      have h1 := runDesc_isOk e
      have h2 := runDescList_isOk es
      unfold runDescList anchorsHaveHrefList
      cases hr1 : runDesc e <;> cases hr2 : runDescList es <;>
        simp_all [Except.isOk, Except.toBool]

end

mutual

theorem runDesc_ok : ∀ e e' : Element, runDesc e = .ok e' →
    anchorsTargetBlank e' = true ∧ frameOk e e' = true
  | .mk tag attrib children, e', h => by
      unfold runDesc at h
      by_cases ht : tag = "a"
      · subst ht
        rw [if_pos rfl] at h
        cases hg : attribGet attrib "href" with
        | none => simp [anchorStep, hg] at h
        | some href =>
            cases hr : runDescList children with
            | error u =>
                rw [hr] at h
                by_cases hs : strStartsWithHash href <;> simp [anchorStep, hg, hs] at h
            | ok cs =>
                rw [hr] at h
                have ih := runDescList_ok children cs hr
                by_cases hs : strStartsWithHash href
                · simp [anchorStep, hg, hs] at h
                  subst h
                  unfold anchorsTargetBlank frameOk
                  simp [hg, hs, ih.1, ih.2]
                · simp [anchorStep, hg, hs] at h
                  subst h
                  have hne : ("href" : String) ≠ "target" := by decide
                  unfold anchorsTargetBlank frameOk
                  simp [attribGet_set_ne attrib "target" "_blank" "href" hne, hg, hs,
                    attribGet_set_self, ih.1, ih.2]
      · rw [if_neg ht] at h
        cases hr : runDescList children with
        | error u => rw [hr] at h; simp at h
        | ok cs =>
            rw [hr] at h
            simp at h
            subst h
            have ih := runDescList_ok children cs hr
            unfold anchorsTargetBlank frameOk
            simp [ht, ih.1, ih.2]

theorem runDescList_ok : ∀ es es' : List Element, runDescList es = .ok es' →
    anchorsTargetBlankList es' = true ∧ frameOkList es es' = true
  | [], es', h => by
      unfold runDescList at h
      simp only [Except.ok.injEq] at h
      subst h
      exact ⟨rfl, rfl⟩
  | e :: es, es', h => by
      unfold runDescList at h
      cases hr1 : runDesc e with
      | error u => rw [hr1] at h; simp at h
      | ok f =>
          rw [hr1] at h
          cases hr2 : runDescList es with
          | error u => rw [hr2] at h; simp at h
          | ok fs =>
              rw [hr2] at h
              simp only [Except.ok.injEq] at h
              subst h
              have ih1 := runDesc_ok e f hr1
              have ih2 := runDescList_ok es fs hr2
              unfold anchorsTargetBlankList frameOkList
              simp [ih1.1, ih1.2, ih2.1, ih2.2]

end

theorem except_error_of_not_isOk {α : Type} (x : Except Unit α) (h : x.isOk = false) :
    x = .error () := by
  cases x with
  | error u => cases u; rfl
  | ok a => simp [Except.isOk, Except.toBool] at h

/-- A document with one fragment anchor and one nested external anchor,
every anchor carrying an `href`. -/
def sampleTree : Element :=
  .mk "div" [("class", "wiki")]
    [ .mk "a" [("href", "#frag"), ("rel", "x")] [],
      .mk "p" [] [ .mk "a" [("href", "https://e.com")] [] ] ]

/-- The preview rendering of `sampleTree`: only the non-fragment anchor
gains `target="_blank"`. -/
def sampleTreeBlank : Element :=
  .mk "div" [("class", "wiki")]
    [ .mk "a" [("href", "#frag"), ("rel", "x")] [],
      .mk "p" [] [ .mk "a" [("href", "https://e.com"), ("target", "_blank")] [] ] ]

/-- A document containing an anchor with no `href` attribute. -/
def badTree : Element :=
  .mk "div" [] [ .mk "a" [("rel", "nofollow")] [] ]

/-- Claim C1: when a markdown document is rendered in preview mode, the
previewlinks tree processor sets `target="_blank"` on every anchor whose
`href` does not start with `"#"`, and returns the root element it was
given (its tag and attributes intact, with the processed children). -/
theorem run_preview_sets_target_blank (root : Element)
    (h : anchorsHaveHrefList root.children = true) :
    ∃ root', PreviewLinksTree.run true root = .ok root' ∧
      anchorsTargetBlankList root'.children = true ∧
      root'.tag = root.tag ∧ root'.attrib = root.attrib := by
  cases root with
  | mk tag attrib children =>
      simp only [Element.children] at h
      have hOk : (runDescList children).isOk = true := by
        rw [runDescList_isOk]; exact h
      cases hr : runDescList children with
      | error u => rw [hr] at hOk; simp [Except.isOk, Except.toBool] at hOk
      | ok cs =>
          refine ⟨.mk tag attrib cs, ?_, ?_, rfl, rfl⟩
          · unfold PreviewLinksTree.run
            simp [Element.children, Element.tag, Element.attrib, hr]
          · exact (runDescList_ok children cs hr).1

/-- Witness for C1 at `sampleTree`. -/
theorem run_preview_sets_target_blank_witness :
    ∃ root', PreviewLinksTree.run true sampleTree = .ok root' ∧
      anchorsTargetBlankList root'.children = true ∧
      root'.tag = sampleTree.tag ∧ root'.attrib = sampleTree.attrib :=
  run_preview_sets_target_blank sampleTree rfl

/-- Claim C8: `PreviewLinksTree.run` in preview mode raises exactly when
some anchor in the tree lacks an `href` attribute (`a.get("href")` is
`None` and `.startswith` raises); when every anchor carries an `href`,
the error branch is unreachable and the run succeeds. -/
theorem run_total_iff_anchors_have_href (root : Element) :
    (anchorsHaveHrefList root.children = false →
      PreviewLinksTree.run true root = .error ()) ∧
    (anchorsHaveHrefList root.children = true →
      (PreviewLinksTree.run true root).isOk = true) := by
  cases root with
  | mk tag attrib children =>
      simp only [Element.children]
      constructor
      · intro h
        have hOk : (runDescList children).isOk = false := by
          rw [runDescList_isOk]; exact h
        have he := except_error_of_not_isOk _ hOk
        unfold PreviewLinksTree.run
        simp [Element.children, he]
      · intro h
        have hOk : (runDescList children).isOk = true := by
          rw [runDescList_isOk]; exact h
        cases hr : runDescList children with
        | error u => rw [hr] at hOk; simp [Except.isOk, Except.toBool] at hOk
        | ok cs =>
            unfold PreviewLinksTree.run
            simp [Element.children, hr, Except.isOk, Except.toBool]

/-- Witness for C8: the run raises on `badTree` (anchor without `href`)
and succeeds on `sampleTree` (all anchors carry `href`). -/
theorem run_total_iff_anchors_have_href_witness :
    PreviewLinksTree.run true badTree = .error () ∧
    (PreviewLinksTree.run true sampleTree).isOk = true :=
  ⟨(run_total_iff_anchors_have_href badTree).1 rfl,
   (run_total_iff_anchors_have_href sampleTree).2 rfl⟩

/-- Claim C9: `PreviewLinksTree.run` changes nothing except the `target`
attribute of non-fragment anchors: with `md.preview` false the tree comes
back unchanged, and in preview mode the root and every non-anchor element
keep their attributes, a fragment anchor (`href` starting with `"#"`)
keeps all of its attributes with `target` never set, and a non-fragment
anchor changes only by having `target` set to `"_blank"`. -/
theorem run_frame (root : Element) :
    PreviewLinksTree.run false root = .ok root ∧
    (∀ root', PreviewLinksTree.run true root = .ok root' →
      root'.tag = root.tag ∧ root'.attrib = root.attrib ∧
      frameOkList root.children root'.children = true) := by
  constructor
  · unfold PreviewLinksTree.run
    simp
  · intro root' h
    cases root with
    | mk tag attrib children =>
        unfold PreviewLinksTree.run at h
        rw [if_pos rfl] at h
        simp only [Element.children, Element.tag, Element.attrib] at h
        cases hr : runDescList children with
        | error u => rw [hr] at h; simp at h
        | ok cs =>
            rw [hr] at h
            simp at h
            subst h
            exact ⟨rfl, rfl, (runDescList_ok children cs hr).2⟩

/-- Witness for C9 at `sampleTree`, whose preview rendering is
`sampleTreeBlank`. -/
theorem run_frame_witness :
    PreviewLinksTree.run false sampleTree = .ok sampleTree ∧
    (sampleTreeBlank.tag = sampleTree.tag ∧
      sampleTreeBlank.attrib = sampleTree.attrib ∧
      frameOkList sampleTree.children sampleTreeBlank.children = true) :=
  ⟨(run_frame sampleTree).1, (run_frame sampleTree).2 sampleTreeBlank rfl⟩

/-- The markdown library's processor registry, reduced to what
`extendMarkdown` touches: the `_priority` list of `(name, priority)`
items in their current order. -/
structure Registry where
  items : List (String × Int)

/-- One step of the registry's stable descending sort by priority. -/
def insertDesc (x : String × Int) : List (String × Int) → List (String × Int)
  | [] => [x]
  | y :: ys => if x.2 ≥ y.2 then x :: y :: ys else y :: insertDesc x ys

/-- `Registry._sort()`: stable sort of the `_priority` list by decreasing
priority, so iteration visits the highest priority first and the item at
index `-1` has the lowest priority. -/
def sortDesc : List (String × Int) → List (String × Int)
  | [] => []
  | x :: xs => insertDesc x (sortDesc xs)

def Registry.sort (r : Registry) : Registry :=
  ⟨sortDesc r.items⟩

/-- `Registry.register(item, name, priority)`: deregister any item of the
same name, then append the new item to the `_priority` list. -/
def Registry.register (r : Registry) (name : String) (priority : Int) : Registry :=
  ⟨(r.items.filter (fun p => p.1 ≠ name)) ++ [(name, priority)]⟩

/-- `PreviewLinksExtension.extendMarkdown(md)`: sort the tree-processor
registry, read the priority of its last item (`_priority[-1]`, an
IndexError — modelled as `.error ()` — when the registry is empty), and
register the previewlinks processor with that priority minus 5. -/
def PreviewLinksExtension.extendMarkdown (r : Registry) : Except Unit Registry :=
  let r1 := r.sort
  match r1.items.getLast? with
  | none => .error ()
  | some p => .ok (r1.register "previewlinks" (p.2 - 5))

theorem insertDesc_ne_nil (x : String × Int) (l : List (String × Int)) :
    insertDesc x l ≠ [] := by
  cases l with
  | nil => simp [insertDesc]
  | cons y ys =>
      unfold insertDesc
      by_cases h : x.2 ≥ y.2 <;> simp [h]

theorem mem_insertDesc (x y : String × Int) (l : List (String × Int)) :
    y ∈ insertDesc x l ↔ y = x ∨ y ∈ l := by
  induction l with
  | nil => simp [insertDesc]
  | cons z zs ih =>
      unfold insertDesc
      by_cases h : x.2 ≥ z.2
      · simp [h]
      · simp [h, ih]
        tauto

theorem mem_sortDesc (y : String × Int) (l : List (String × Int)) :
    y ∈ sortDesc l ↔ y ∈ l := by
  induction l with
  | nil => simp [sortDesc]
  | cons x xs ih => simp [sortDesc, mem_insertDesc, ih]

theorem insertDesc_pairwise (x : String × Int) (l : List (String × Int))
    (h : l.Pairwise (fun a b => b.2 ≤ a.2)) :
    (insertDesc x l).Pairwise (fun a b => b.2 ≤ a.2) := by
  induction l with
  | nil => simp [insertDesc]
  | cons y ys ih =>
      unfold insertDesc
      rcases List.pairwise_cons.mp h with ⟨hy, hys⟩
      by_cases hxy : x.2 ≥ y.2
      · rw [if_pos hxy]
        refine List.pairwise_cons.mpr ⟨?_, h⟩
        intro z hz
        rcases List.mem_cons.mp hz with hz | hz
        · exact hz ▸ hxy
        · exact le_trans (hy z hz) hxy
      · rw [if_neg hxy]
        refine List.pairwise_cons.mpr ⟨?_, ih hys⟩
        intro z hz
        rcases (mem_insertDesc x z ys).mp hz with hz | hz
        · exact hz ▸ (le_of_lt (lt_of_not_ge hxy))
        · exact hy z hz

theorem sortDesc_pairwise (l : List (String × Int)) :
    (sortDesc l).Pairwise (fun a b => b.2 ≤ a.2) := by
  induction l with
  | nil => simp [sortDesc]
  | cons x xs ih => exact insertDesc_pairwise x (sortDesc xs) ih

theorem pairwise_getLast_min (l : List (String × Int)) (p : String × Int)
    (hp : l.Pairwise (fun a b => b.2 ≤ a.2)) (hl : l.getLast? = some p) :
    ∀ q ∈ l, p.2 ≤ q.2 := by
  induction l with
  | nil => simp at hl
  | cons x xs ih =>
      rcases List.pairwise_cons.mp hp with ⟨hx, hxs⟩
      cases xs with
      | nil =>
          simp [List.getLast?] at hl
          subst hl
          intro q hq
          simp at hq
          simp [hq]
      | cons y ys =>
          have hl' : (y :: ys).getLast? = some p := hl
          have hmin := ih hxs hl'
          intro q hq
          rcases List.mem_cons.mp hq with hq | hq
          · have hpx : p ∈ y :: ys := List.mem_of_mem_getLast? hl'
            exact hq ▸ (hx p hpx)
          · exact hmin q hq

theorem sortDesc_getLast_min (l : List (String × Int)) (p : String × Int)
    (hl : (sortDesc l).getLast? = some p) :
    ∀ q ∈ l, p.2 ≤ q.2 := by
  intro q hq
  exact pairwise_getLast_min (sortDesc l) p (sortDesc_pairwise l) hl q
    ((mem_sortDesc q l).mpr hq)

theorem insertDesc_append_min (a x : String × Int) (l : List (String × Int))
    (hx : x.2 < a.2) :
    insertDesc a (l ++ [x]) = insertDesc a l ++ [x] := by
  induction l with
  | nil =>
      simp [insertDesc, le_of_lt hx]
  | cons b bs ih =>
      unfold insertDesc
      by_cases h : a.2 ≥ b.2 <;> simp [h, ih]

theorem sortDesc_append_min (x : String × Int) (l : List (String × Int))
    (hx : ∀ q ∈ l, x.2 < q.2) :
    sortDesc (l ++ [x]) = sortDesc l ++ [x] := by
  induction l with
  | nil => simp [sortDesc, insertDesc]
  | cons a as ih =>
      have ha : x.2 < a.2 := hx a (List.mem_cons_self a as)
      have has : ∀ q ∈ as, x.2 < q.2 := fun q hq => hx q (List.mem_cons_of_mem a hq)
      simp only [List.cons_append, sortDesc, List.append_eq]
      rw [ih has]
      exact insertDesc_append_min a x (sortDesc as) ha

/-- Claim C10: `PreviewLinksExtension.extendMarkdown` first sorts the
tree-processor registry, then registers `"previewlinks"` with priority
equal to the lowest currently registered priority minus 5; since that
priority is strictly below every other processor's, the previewlinks
processor comes last in the registry's run order (the descending sort),
i.e. it runs after every tree processor registered before it. -/
theorem extendMarkdown_registers_previewlinks_last (r : Registry)
    (hne : r.items ≠ [])
    (hnm : ∀ p ∈ r.items, p.1 ≠ "previewlinks") :
    ∃ m : Int,
      (∃ q ∈ r.items, q.2 = m) ∧
      (∀ q ∈ r.items, m ≤ q.2) ∧
      PreviewLinksExtension.extendMarkdown r =
        .ok ⟨sortDesc r.items ++ [("previewlinks", m - 5)]⟩ ∧
      (∀ r', PreviewLinksExtension.extendMarkdown r = .ok r' →
        (Registry.sort r').items.getLast? = some ("previewlinks", m - 5)) := by
  have hsne : sortDesc r.items ≠ [] := by
    cases hi : r.items with
    | nil => exact absurd hi hne
    | cons x xs => simp [sortDesc, insertDesc_ne_nil]
  have hsome : (sortDesc r.items).getLast?.isSome := List.getLast?_isSome.mpr hsne
  cases hlast : (sortDesc r.items).getLast? with
  | none => rw [hlast] at hsome; simp at hsome
  | some p =>
      have hmin : ∀ q ∈ r.items, p.2 ≤ q.2 := sortDesc_getLast_min r.items p hlast
      have hfilter : (sortDesc r.items).filter (fun q => q.1 ≠ "previewlinks") =
          sortDesc r.items := by
        refine List.filter_eq_self.mpr ?_
        intro q hq
        have hqm : q ∈ r.items := (mem_sortDesc q r.items).mp hq
        simpa using hnm q hqm
      have hrun : PreviewLinksExtension.extendMarkdown r =
          .ok ⟨sortDesc r.items ++ [("previewlinks", p.2 - 5)]⟩ := by
        unfold PreviewLinksExtension.extendMarkdown
        simp only [Registry.sort, hlast, Registry.register, hfilter]
      refine ⟨p.2, ⟨p, ?_, rfl⟩, hmin, hrun, ?_⟩
      · exact (mem_sortDesc p r.items).mp (List.mem_of_mem_getLast? hlast)
      · intro r' hr'
        rw [hrun] at hr'
        have hr'' : r' = ⟨sortDesc r.items ++ [("previewlinks", p.2 - 5)]⟩ := by
          cases hr'
          rfl
        subst hr''
        have hstrict : ∀ q ∈ sortDesc r.items, p.2 - 5 < q.2 := by
          intro q hq
          have := hmin q ((mem_sortDesc q r.items).mp hq)
          omega
        simp only [Registry.sort]
        rw [sortDesc_append_min ("previewlinks", p.2 - 5) (sortDesc r.items) hstrict]
        exact List.getLast?_concat _

/-- A concrete tree-processor registry with three processors. -/
def demoRegistry : Registry :=
  ⟨[("inline", 20), ("prettify", 10), ("toc", 5)]⟩

/-- Witness for C10 at `demoRegistry`: the minimum priority is 5, so
previewlinks is registered at 0 and sorts last. -/
theorem extendMarkdown_registers_previewlinks_last_witness :
    ∃ m : Int,
      (∃ q ∈ demoRegistry.items, q.2 = m) ∧
      (∀ q ∈ demoRegistry.items, m ≤ q.2) ∧
      PreviewLinksExtension.extendMarkdown demoRegistry =
        .ok ⟨sortDesc demoRegistry.items ++ [("previewlinks", m - 5)]⟩ ∧
      (∀ r', PreviewLinksExtension.extendMarkdown demoRegistry = .ok r' →
        (Registry.sort r').items.getLast? = some ("previewlinks", m - 5)) :=
  extendMarkdown_registers_previewlinks_last demoRegistry (by simp [demoRegistry])
    (by intro p hp; fin_cases hp <;> decide)

/-- Modelled from the spec: the `ArticleRevision` ORM model is not part of
this excerpt (only `tests/core/test_models.py` exercises it). A revision
record as the spec and tests observe it: title, markdown content, the
1-based `revision_number`, and `previous_revision` — the commit position
of the revision committed immediately before it on the same article,
`none` for an article's first revision. -/
structure Rev where
  title : String
  content : String
  revision_number : Nat
  previous_revision : Option Nat
  deriving DecidableEq

/-- Modelled from the spec: the `Article` ORM model is not part of this
excerpt. An article as the tests observe it: the committed revisions in
commit order (a revision is identified by its position in this list), the
position of the current revision, the cached rendering, owner and group
references, creation and modification timestamps, and the four permission
flags; nullable columns are `Option`. -/
structure Article where
  revisions : List Rev
  current_revision : Option Nat
  cached_content : Option String
  owner : Option Nat
  group : Option Nat
  created : Option Nat
  modified : Option Nat
  group_read : Option Bool
  group_write : Option Bool
  other_read : Option Bool
  other_write : Option Bool

/-- Modelled from the spec: `Article.objects.create()` with no arguments —
no current revision, owner or group; the timestamps are filled in on
creation and the permission flags take non-null defaults. -/
def Article.create : Article :=
  { revisions := []
    current_revision := none
    cached_content := none
    owner := none
    group := none
    created := some 0
    modified := some 0
    group_read := some true
    group_write := some true
    other_read := some true
    other_write := some true }

/-- Modelled from the spec: committing a revision to an article, the step
shared by direct saving and `Article.add_revision` — the new revision
number is one greater than the latest committed revision's (1 when the
article has none), `previous_revision` points at the revision committed
immediately before (`none` for the first), and the revision is appended
to the article's revision set. -/
def commitRev (a : Article) (title content : String) : Article :=
  let num := match a.revisions.getLast? with
    | none => 1
    | some r => r.revision_number + 1
  let prev := match a.revisions.length with
    | 0 => none
    | Nat.succ k => some k
  { a with revisions := a.revisions ++ [⟨title, content, num, prev⟩] }

/-- Modelled from the spec: `ArticleRevision.save()` on a new revision —
the revision is committed, and the article's `current_revision` is set to
it only when the article does not have one yet, so only the first
directly saved revision becomes current. -/
def directSave (a : Article) (title content : String) : Article :=
  let a' := commitRev a title content
  match a.current_revision with
  | none => { a' with current_revision := some a.revisions.length }
  | some _ => a'

/-- Modelled from the spec: `Article.add_revision(r)` — commits `r` (also
when `r` was not previously attached to the article) and makes it the
article's current revision. -/
def add_revision (a : Article) (title content : String) : Article :=
  let a' := commitRev a title content
  { a' with current_revision := some a.revisions.length }

/-- A commit step observed by the tests: a direct `ArticleRevision.save()`
or an `Article.add_revision` call. -/
inductive Op where
  | save (title content : String)
  | add (title content : String)

def applyOp (a : Article) : Op → Article
  | .save t c => directSave a t c
  | .add t c => add_revision a t c

def applyOps (a : Article) (ops : List Op) : Article :=
  ops.foldl applyOp a

/-- The previous-revision pointer prescribed for commit position `i`:
`none` for the first revision, position `i - 1` for every later one. -/
def prevAt : Nat → Option Nat
  | 0 => none
  | Nat.succ k => some k

/-- Revisions are numbered consecutively from 1 in commit order. -/
def numbersInv (a : Article) : Prop :=
  ∀ (i : Nat) (r : Rev), a.revisions[i]? = some r → r.revision_number = i + 1

/-- Each revision's `previous_revision` is the revision committed
immediately before it, `none` for the first. -/
def chainInv (a : Article) : Prop :=
  ∀ (i : Nat) (r : Rev), a.revisions[i]? = some r → r.previous_revision = prevAt i

theorem getElem?_concat_cases (l : List Rev) (x : Rev) (i : Nat) (r : Rev)
    (h : (l ++ [x])[i]? = some r) :
    (i < l.length ∧ l[i]? = some r) ∨ (i = l.length ∧ r = x) := by
  by_cases hi : i < l.length
  · left
    rw [List.getElem?_append_left hi] at h
    exact ⟨hi, h⟩
  · right
    by_cases hie : i = l.length
    · subst hie
      rw [List.getElem?_concat_length] at h
      injection h with h
      exact ⟨rfl, h.symm⟩
    · exfalso
      have hnone : (l ++ [x])[i]? = none :=
        List.getElem?_eq_none_iff.mpr (by simp; omega)
      rw [hnone] at h
      exact absurd h (by simp)

theorem commitRev_numbersInv (a : Article) (t c : String) (ha : numbersInv a) :
    numbersInv (commitRev a t c) := by
  unfold numbersInv
  intro i r h
  unfold commitRev at h
  simp only at h
  rcases getElem?_concat_cases _ _ _ _ h with ⟨_, hget⟩ | ⟨hie, hr⟩
  · exact ha i r hget
  · subst hie
    subst hr
    simp only
    cases hlast : a.revisions.getLast? with
    | none =>
        have hnil : a.revisions = [] := List.getLast?_eq_none_iff.mp hlast
        simp [hnil]
    | some q =>
        have hq : a.revisions[a.revisions.length - 1]? = some q := by
          rw [← List.getLast?_eq_getElem?]
          exact hlast
        have hne : a.revisions ≠ [] := by
          intro hr
          rw [hr] at hlast
          simp at hlast
        have hlen : 0 < a.revisions.length := List.length_pos.mpr hne
        have := ha (a.revisions.length - 1) q hq
        simp only
        omega

theorem commitRev_chainInv (a : Article) (t c : String) (ha : chainInv a) :
    chainInv (commitRev a t c) := by
  unfold chainInv
  intro i r h
  unfold commitRev at h
  simp only at h
  rcases getElem?_concat_cases _ _ _ _ h with ⟨_, hget⟩ | ⟨hie, hr⟩
  · exact ha i r hget
  · subst hie
    subst hr
    simp only
    cases hlen : a.revisions.length with
    | zero => simp [prevAt]
    | succ k => simp [prevAt]

theorem directSave_revisions (a : Article) (t c : String) :
    (directSave a t c).revisions = (commitRev a t c).revisions := by
  unfold directSave
  cases a.current_revision <;> rfl

theorem add_revision_revisions (a : Article) (t c : String) :
    (add_revision a t c).revisions = (commitRev a t c).revisions := rfl

theorem applyOp_numbersInv (a : Article) (op : Op) (ha : numbersInv a) :
    numbersInv (applyOp a op) := by
  cases op with
  | save t c =>
      unfold numbersInv
      intro i r h
      rw [applyOp, directSave_revisions] at h
      exact commitRev_numbersInv a t c ha i r h
  | add t c =>
      unfold numbersInv
      intro i r h
      rw [applyOp, add_revision_revisions] at h
      exact commitRev_numbersInv a t c ha i r h

theorem applyOp_chainInv (a : Article) (op : Op) (ha : chainInv a) :
    chainInv (applyOp a op) := by
  cases op with
  | save t c =>
      unfold chainInv
      intro i r h
      rw [applyOp, directSave_revisions] at h
      exact commitRev_chainInv a t c ha i r h
  | add t c =>
      unfold chainInv
      intro i r h
      rw [applyOp, add_revision_revisions] at h
      exact commitRev_chainInv a t c ha i r h

theorem applyOps_numbersInv (ops : List Op) (a : Article) (ha : numbersInv a) :
    numbersInv (applyOps a ops) := by
  induction ops generalizing a with
  | nil => exact ha
  | cons op ops ih => exact ih (applyOp a op) (applyOp_numbersInv a op ha)

theorem applyOps_chainInv (ops : List Op) (a : Article) (ha : chainInv a) :
    chainInv (applyOps a ops) := by
  induction ops generalizing a with
  | nil => exact ha
  | cons op ops ih => exact ih (applyOp a op) (applyOp_chainInv a op ha)

/-- The commit sequence of the revision tests: a direct save, an
`add_revision`, and another direct save. -/
def demoOps : List Op :=
  [Op.save "revision3a" "", Op.add "revision2" "", Op.save "revision3b" ""]

def demoRev0 : Rev := ⟨"revision3a", "", 1, none⟩

def demoRev2 : Rev := ⟨"revision3b", "", 3, some 1⟩

/-- Claim C2: for every article built from a fresh one by any sequence of
direct revision saves and `Article.add_revision` calls, revisions receive
consecutive revision numbers in commit order: the revision at commit
position `i` carries `revision_number` `i + 1`, so the first revision of
an article gets 1 and each subsequently committed revision a number
exactly one greater than the previous revision's. -/
theorem revision_numbers_consecutive (ops : List Op) (i : Nat) (r : Rev)
    (h : (applyOps Article.create ops).revisions[i]? = some r) :
    r.revision_number = i + 1 := by
  have hinv : numbersInv Article.create := by
    unfold numbersInv
    intro j q hq
    simp [Article.create] at hq
  exact applyOps_numbersInv ops Article.create hinv i r h

/-- Witness for C2: in the three-commit test sequence the revision at
position 2 carries number 3. -/
theorem revision_numbers_consecutive_witness :
    (applyOps Article.create demoOps).revisions[2]? = some demoRev2 ∧
    demoRev2.revision_number = 2 + 1 :=
  ⟨rfl, revision_numbers_consecutive demoOps 2 demoRev2 rfl⟩

/-- Claim C3: the revisions of every article built by direct saves and
`Article.add_revision` form a linked chain: the first revision has
`previous_revision` `none`, and every later revision's
`previous_revision` is exactly the revision committed immediately before
it on the same article (commit position `i` points at `i - 1`). -/
theorem revision_chain_linked (ops : List Op) (i : Nat) (r : Rev)
    (h : (applyOps Article.create ops).revisions[i]? = some r) :
    r.previous_revision = prevAt i := by
  have hinv : chainInv Article.create := by
    unfold chainInv
    intro j q hq
    simp [Article.create] at hq
  exact applyOps_chainInv ops Article.create hinv i r h

/-- Witness for C3: in the test sequence the first revision has no
predecessor and the third points at the second. -/
theorem revision_chain_linked_witness :
    (applyOps Article.create demoOps).revisions[0]? = some demoRev0 ∧
    (applyOps Article.create demoOps).revisions[2]? = some demoRev2 ∧
    demoRev0.previous_revision = none ∧
    demoRev2.previous_revision = some 1 :=
  ⟨rfl, rfl, revision_chain_linked demoOps 0 demoRev0 rfl,
   revision_chain_linked demoOps 2 demoRev2 rfl⟩

/-- Claim C4: after `article.add_revision(r)` the article's
`current_revision` is the newly committed revision `r` (also when `r` was
not previously attached to the article); a direct save makes the saved
revision current only when the article has no current revision yet — an
article that already has one keeps it, so saving a second revision
directly leaves `current_revision` pointing at the first. -/
theorem add_revision_sets_current (a : Article) (t c : String) :
    (add_revision a t c).current_revision = some a.revisions.length ∧
    (a.current_revision = none →
      (directSave a t c).current_revision = some a.revisions.length) ∧
    (∀ i : Nat, a.current_revision = some i →
      (directSave a t c).current_revision = some i) := by
  refine ⟨rfl, ?_, ?_⟩
  · intro h
    simp [directSave, h]
  · intro i h
    simp [directSave, commitRev, h]

def demoArticle1 : Article := directSave Article.create "revision3a" ""

/-- Witness for C4: on an article with one saved revision, `add_revision`
makes the new revision (position 1) current, while a second direct save
leaves the first revision current. -/
theorem add_revision_sets_current_witness :
    (add_revision demoArticle1 "revision2" "").current_revision = some 1 ∧
    (directSave demoArticle1 "revision3b" "").current_revision = some 0 :=
  ⟨(add_revision_sets_current demoArticle1 "revision2" "").1,
   (add_revision_sets_current demoArticle1 "revision3b" "").2.2 0 rfl⟩

/-- Modelled from the spec: a `SimplePlugin` as the tests observe it — its
`article_revision` field records the article revision created when the
plugin is saved. -/
structure SimplePlugin where
  article_revision : Option Nat

/-- Modelled from the spec: saving a new `SimplePlugin` attached to an
article creates a new article revision through `Article.add_revision` and
records it as the plugin's `article_revision`. -/
def simplePluginSave (a : Article) : Article × SimplePlugin :=
  (add_revision a "" "", ⟨some a.revisions.length⟩)

/-- Claim C5: saving a `SimplePlugin` attached to an article whose current
revision is its latest committed revision creates a new article revision:
after the save the plugin's `article_revision` is non-null, differs from
the article's previous current revision, equals the article's new
`current_revision`, and the created revision has the previous current
revision as its `previous_revision`. -/
theorem simple_plugin_save_creates_revision (a : Article) (i : Nat)
    (hc : a.current_revision = some i) (hl : i + 1 = a.revisions.length) :
    (simplePluginSave a).2.article_revision ≠ none ∧
    (simplePluginSave a).2.article_revision ≠ a.current_revision ∧
    (simplePluginSave a).2.article_revision =
      (simplePluginSave a).1.current_revision ∧
    ∃ r : Rev, (simplePluginSave a).1.revisions[a.revisions.length]? = some r ∧
      r.previous_revision = some i := by
  refine ⟨by simp [simplePluginSave], ?_, rfl, ?_⟩
  · rw [hc]
    simp [simplePluginSave]
    omega
  · refine ⟨_, List.getElem?_concat_length a.revisions _, ?_⟩
    show (match a.revisions.length with
      | 0 => (none : Option Nat)
      | Nat.succ k => some k) = some i
    rw [← hl]

def demoArticle2 : Article := directSave Article.create "test" ""

/-- Witness for C5 on the test article with one revision. -/
theorem simple_plugin_save_creates_revision_witness :
    (simplePluginSave demoArticle2).2.article_revision ≠ none ∧
    (simplePluginSave demoArticle2).2.article_revision ≠
      demoArticle2.current_revision ∧
    (simplePluginSave demoArticle2).2.article_revision =
      (simplePluginSave demoArticle2).1.current_revision ∧
    ∃ r : Rev,
      (simplePluginSave demoArticle2).1.revisions[demoArticle2.revisions.length]? =
        some r ∧ r.previous_revision = some 0 :=
  simple_plugin_save_creates_revision demoArticle2 0 rfl rfl

/-- Modelled from the spec: the markdown rendering used for the cached
content, as the cache test observes it — a `# `-heading renders to an
`h1` element whose id is the heading text prefixed by `wiki-toc-`,
containing the heading text; anything else renders as a paragraph. -/
def render (content : String) : String :=
  match content.data with
  | '#' :: ' ' :: rest =>
      "<h1 id=\"wiki-toc-" ++ String.mk rest ++ "\">" ++ String.mk rest ++ "</h1>"
  | _ => "<p>" ++ content ++ "</p>"

/-- Modelled from the spec: `Article.get_cached_content()` — when the
cache already holds content it is returned as is; otherwise the current
revision's markdown content is rendered, stored in the cache, and
returned. -/
def get_cached_content (a : Article) : Article × String :=
  match a.cached_content with
  | some s => (a, s)
  | none =>
      let s := match a.current_revision with
        | none => ""
        | some i =>
            match a.revisions[i]? with
            | none => ""
            | some r => render r.content
      ({ a with cached_content := some s }, s)

/-- Claim C6: `get_cached_content` is idempotent at the public interface:
on an article with a current revision and no cached content yet, the
first call creates and returns the cached rendering of the current
revision's markdown content, and a second call returns the same
content. -/
theorem get_cached_content_idempotent (a : Article) (i : Nat) (r : Rev)
    (hc : a.current_revision = some i) (hr : a.revisions[i]? = some r)
    (hcache : a.cached_content = none) :
    (get_cached_content a).2 = render r.content ∧
    (get_cached_content (get_cached_content a).1).2 =
      (get_cached_content a).2 := by
  constructor
  · simp [get_cached_content, hcache, hc, hr]
  · simp [get_cached_content, hcache, hc, hr]

def demoArticle3 : Article := directSave Article.create "test" "# header"

def demoHeaderRev : Rev := ⟨"test", "# header", 1, none⟩

/-- Witness for C6: on the test article with content `"# header"` both
calls return the `h1` rendering with id `wiki-toc-header` containing
`header`. -/
theorem get_cached_content_idempotent_witness :
    (get_cached_content demoArticle3).2 =
      "<h1 id=\"wiki-toc-header\">header</h1>" ∧
    (get_cached_content (get_cached_content demoArticle3).1).2 =
      (get_cached_content demoArticle3).2 :=
  ⟨(get_cached_content_idempotent demoArticle3 0 demoHeaderRev rfl rfl rfl).1,
   (get_cached_content_idempotent demoArticle3 0 demoHeaderRev rfl rfl rfl).2⟩

/-- Claim C7: an article created with no arguments has `current_revision`,
`owner` and `group` all null, while its `created` and `modified`
timestamps and its four permission flags `group_read`, `group_write`,
`other_read` and `other_write` are all non-null. -/
theorem article_create_defaults :
    Article.create.current_revision = none ∧
    Article.create.owner = none ∧
    Article.create.group = none ∧
    Article.create.created ≠ none ∧
    Article.create.modified ≠ none ∧
    Article.create.group_read ≠ none ∧
    Article.create.group_write ≠ none ∧
    Article.create.other_read ≠ none ∧
    Article.create.other_write ≠ none := by
  refine ⟨rfl, rfl, rfl, ?_, ?_, ?_, ?_, ?_, ?_⟩ <;> simp [Article.create]

end Wiki
